import Mathlib

/-
Verification of the fast-marching signed-distance solver
(`fipy/models/levelSet/distanceFunction/distanceEquation.py`).

The solver is embedded shallowly:

* Scalar values are `MF := Option ℚ`: `some q` is an ordinary floating-point
  value (arithmetic idealised as exact rationals), `none` is IEEE NaN, which
  the original propagates silently through arithmetic.  Comparisons against
  NaN are `false`, as in Python.
* The square root `Numeric.sqrt` is modelled by `msqrt`: NaN on a negative
  argument (the design notes of the spec state that the original system
  "would propagate a not-a-number value silently" there), and on nonnegative
  arguments a computable rational square root that is exact on perfect
  squares — every concrete run evaluated below only takes square roots of
  perfect squares, so no result depends on the inexact branch.
* The mesh interface (`getCellToCellIDsFilled`, `getCellToCellDistances`,
  `getCellNormals`, `getCellAreas`, `getInterfaceFlag`) is external to the
  three source files; it is modelled from the spec's interface section: a
  validity-flagged neighbour per cell/face slot, a positive centre-to-centre
  distance, a normal and an area per slot.  `getCellToCellIDsFilled` fills
  invalid (boundary) slots with the cell's own index, which the source code
  relies on only through masks (`setValueFlag != 1`) and flag sums.
* Masked-array reductions (`MA.argmin`, `MA.argsort`) are modelled with
  `Option` keys where a masked slot is `none` and sorts or compares as the
  fill value  `+∞`; `Numeric.argmin` returns the first position attaining the
  minimum, and the sort is taken stable (the source's `argsort` order among
  exact ties is unspecified).
* The bare `raise Error` of `_calcTrialValue` — `Error` is an undefined name
  in the source module, so Python raises a `NameError` — is `Err.nameError`;
  `Err.computationError` is the error the spec's error-handling design names,
  which the source never constructs.
-/

namespace FastMarch

attribute [local semireducible] Rat.add Rat.mul Rat.inv Rat.sub

/-- A floating-point value of the original program: `some q` is the real
value `q`, `none` is NaN. -/
abbrev MF : Type := Option ℚ

/-- Addition with silent NaN propagation. -/
def mAdd : MF → MF → MF
  | some a, some b => some (a + b)
  | _, _ => none

/-- Subtraction with silent NaN propagation. -/
def mSub : MF → MF → MF
  | some a, some b => some (a - b)
  | _, _ => none

/-- Multiplication with silent NaN propagation. -/
def mMul : MF → MF → MF
  | some a, some b => some (a * b)
  | _, _ => none

/-- Negation with silent NaN propagation. -/
def mNeg : MF → MF
  | some a => some (-a)
  | none => none

/-- Division: NaN operands propagate, and a zero divisor yields no value
(the scalar division of the source would stop the run there; no claim
below exercises that corner). -/
def mDiv : MF → MF → MF
  | some a, some b => if b = 0 then none else some (a / b)
  | _, _ => none

/-- Absolute value with NaN propagation. -/
def mAbs : MF → MF
  | some a => some |a|
  | none => none

/-- The test `x > 0` of the source; false on NaN, as in Python. -/
def mGtZero : MF → Bool
  | some a => decide (0 < a)
  | none => false

/-- Strict comparison of reduction keys: a masked or NaN key (`none`) acts
as the fill value `+∞` of the masked-array reductions. -/
def keyLt : MF → MF → Bool
  | some a, some b => decide (a < b)
  | some _, none => true
  | none, _ => false

/-- Non-strict comparison of reduction keys, `none` again greatest. -/
def keyLe : MF → MF → Bool
  | some a, some b => decide (a ≤ b)
  | some _, none => true
  | none, none => true
  | none, some _ => false

/-- Integer square root (the largest `k` with `k * k ≤ n`), written as a
scan so that it evaluates inside the kernel. -/
def natSqrt (n : ℕ) : ℕ :=
  ((List.range (n + 1)).filter (fun k => decide (k * k ≤ n))).length - 1

/-- Rational model of floating-point square root on nonnegative arguments:
exact whenever numerator and denominator are perfect squares (the only cases
the concrete runs below reach), a floor-style approximation otherwise. -/
def ratSqrt (q : ℚ) : ℚ := (natSqrt q.num.toNat : ℚ) / (natSqrt q.den : ℚ)

/-- `Numeric.sqrt` as the source uses it: silently NaN on a negative
argument, `ratSqrt` otherwise. -/
def msqrt : MF → MF
  | some q => if q < 0 then none else some (ratSqrt q)
  | none => none

/-- The mesh interface required by the solver, as §6 of the spec lists it:
per cell and face slot a validity-flagged neighbour id, a centre-to-centre
distance (positive — it is a distance between distinct cell centres), an
outward normal and a face area. -/
structure Mesh (N M : ℕ) where
  nbr : Fin N → Fin M → Option (Fin N)
  dAP : Fin N → Fin M → ℚ
  normal : Fin N → Fin M → ℚ × ℚ
  area : Fin N → Fin M → ℚ
  dAP_pos : ∀ c j, 0 < dAP c j

/-- `getCellToCellIDsFilled`: an invalid (boundary) slot is filled with the
cell's own index; the source reads it only behind masks and flag tests. -/
def filledNbr (m : Mesh N M) (c : Fin N) (j : Fin M) : Fin N :=
  (m.nbr c j).getD c

/-- One slot of the interface-distance row of `_calcInterfaceValues`:
`phi * dAP / abs(phi - phiAdj)` where the slot's face borders a neighbour of
strictly opposite sign (`getInterfaceFlag`), masked (`none`) otherwise.
`MA.masked_values(..., 0)` masks exactly the slots whose flag factor is 0,
and on a flagged slot the candidate is a real nonzero number. -/
def interfaceCandidate (m : Mesh N M) (v : Fin N → MF) (c : Fin N) (j : Fin M) :
    Option ℚ :=
  match m.nbr c j with
  | none => none
  | some a =>
    match v c, v a with
    | some p, some q => if p * q < 0 then some (p * m.dAP c j / |p - q|) else none
    | _, _ => none

/-- `MA.argmin(abs(row))`: the first slot attaining the least absolute value
among the unmasked slots, `none` when every slot is masked. -/
def slotArgmin (f : Fin M → Option ℚ) : List (Fin M) → Option (Fin M)
  | [] => none
  | j :: js =>
    match f j with
    | none => slotArgmin f js
    | some q =>
      match slotArgmin f js with
      | none => some j
      | some b =>
        match f b with
        | none => some j
        | some qb => if |qb| < |q| then some b else some j

/-- Phase 1, `_calcInterfaceValues`: returns the updated field and the 0/1
`setValueFlag` row (`where(cellFlag > 0, 1, 0)`).  A cell with at least one
flagged slot receives the flagged candidate of least absolute value (first
slot wins ties); any other cell keeps its value. -/
def _calcInterfaceValues (m : Mesh N M) (v : Fin N → MF) :
    (Fin N → MF) × (Fin N → ℕ) :=
  (fun c =>
    match slotArgmin (interfaceCandidate m v c) (List.finRange M) with
    | some j => interfaceCandidate m v c j
    | none => v c,
   fun c =>
    match slotArgmin (interfaceCandidate m v c) (List.finRange M) with
    | some _ => 1
    | none => 0)

/-- `_calcLinear`: the two candidates `phi + d` and `phi - d`.  The cell ids
are carried but unused, as in the source. -/
def _calcLinear (phi : MF) (d : ℚ) (cellID adjCellID : ℕ) : MF × MF :=
  (mAdd phi (some d), mSub phi (some d))

/-- `_calcQuadratic`: the closed-form two-neighbour solve.  The face areas
and the cell ids are carried but unused, exactly as in the source. -/
def _calcQuadratic (phi1 phi2 : MF) (n1 n2 : ℚ × ℚ) (d1 d2 : ℚ)
    (area1 area2 : ℚ) (cellID adjCellID1 adjCellID2 : ℕ) : MF × MF :=
  let dotProd : ℚ := d1 * d2 * (n1.1 * n2.1 + n1.2 * n2.2)
  let crossProd : ℚ := d1 * d2 * (n1.1 * n2.2 - n1.2 * n2.1)
  let dsq : ℚ := d1 ^ 2 + d2 ^ 2 - 2 * dotProd
  let top : MF := mSub (mNeg (mMul phi1 (some (dotProd - d2 ^ 2))))
    (mMul phi2 (some (dotProd - d1 ^ 2)))
  let sq : MF := msqrt (mMul (some (crossProd ^ 2))
    (mSub (some dsq) (mMul (mSub phi1 phi2) (mSub phi1 phi2))))
  (mDiv (mAdd top sq) (some dsq), mDiv (mSub top sq) (some dsq))

/-- The errors the run can surface.  `nameError` is what the bare
`raise Error` of `_calcTrialValue` actually raises (the name `Error` is
undefined in the source module); `computationError` is the named
internal-consistency error the spec's design assigns to that path, which
the source never constructs. -/
inductive Err where
  | nameError : Err
  | computationError : Err
deriving DecidableEq

/-- The sort key of a neighbour slot in `_calcTrialValue`:
`abs(values)` with the mask `setValueFlag != 1`; a masked slot is `none`
(the fill value, greatest). -/
def slotKey (m : Mesh N M) (var : Fin N → MF) (flag : Fin N → ℕ) (c : Fin N)
    (j : Fin M) : MF :=
  if flag (filledNbr m c j) = 1 then mAbs (var (filledNbr m c j)) else none

/-- Stable insertion of a slot into a key-sorted slot list: the inserted
slot goes after every slot of equal key. -/
def insertSlot (key : Fin M → MF) (j : Fin M) : List (Fin M) → List (Fin M)
  | [] => [j]
  | k :: ks => if keyLt (key j) (key k) then j :: k :: ks else k :: insertSlot key j ks

/-- `MA.argsort(abs(values))` as a stable sort of the face slots by key;
masked slots sort last. -/
def sortSlots (key : Fin M → MF) : List (Fin M) → List (Fin M)
  | [] => []
  | j :: js => insertSlot key j (sortSlots key js)

/-- The unmasked slots: those whose filled neighbour has `setValueFlag == 1`.
Its length is the `NSetValues` of the source. -/
def knownSlots (m : Mesh N M) (flag : Fin N → ℕ) (c : Fin N) : List (Fin M) :=
  (List.finRange M).filter (fun j => flag (filledNbr m c j) == 1)

/-- `_calcTrialValue`: candidate distance of `cellID` from its currently
Known neighbours.  Zero Known neighbours raises (`raise Error`); one uses
the linear solve; two or more use the quadratic solve on the two slots of
least key.  `sign` is `var[cellID] > 0`. -/
def _calcTrialValue (m : Mesh N M) (var : Fin N → MF) (flag : Fin N → ℕ)
    (cellID : Fin N) : Except Err MF :=
  let sorted := sortSlots (slotKey m var flag cellID) (List.finRange M)
  let sign : Bool := mGtZero (var cellID)
  match (knownSlots m flag cellID).length, sorted with
  | 0, _ => .error .nameError
  | 1, j0 :: _ =>
    let a0 := filledNbr m cellID j0
    let lin := _calcLinear (var a0) (m.dAP cellID j0) cellID.val a0.val
    .ok (if sign then lin.1 else lin.2)
  | _ + 2, j0 :: j1 :: _ =>
    let a0 := filledNbr m cellID j0
    let a1 := filledNbr m cellID j1
    let quad := _calcQuadratic (var a0) (var a1) (m.normal cellID j0)
      (m.normal cellID j1) (m.dAP cellID j0) (m.dAP cellID j1)
      (m.area cellID j0) (m.area cellID j1) cellID.val a0.val a1.val
    .ok (if sign then quad.1 else quad.2)
  | _, _ => .error .nameError

/-- The sequential update loop of `_calcInitialTrialValues`: each trial cell
in turn receives its trial value, reading the field as already updated (Known
neighbours are unaffected, so the order is immaterial, but the embedding
keeps the source's sequencing). -/
def phase2Vals (m : Mesh N M) (flag : Fin N → ℕ) :
    List (Fin N) → (Fin N → MF) → Except Err (Fin N → MF)
  | [], var => .ok var
  | c :: rest, var =>
    match _calcTrialValue m var flag c with
    | .error e => .error e
    | .ok val => phase2Vals m flag rest (Function.update var c val)

/-- `sum(take(setValueFlag, cellToCellIDsFilled), axis=1)` for one cell. -/
def sumAdjFlag (m : Mesh N M) (flag : Fin N → ℕ) (c : Fin N) : ℕ :=
  ((List.finRange M).map (fun j => flag (filledNbr m c j))).sum

/-- Phase 2, `_calcInitialTrialValues`: promote every non-Known cell with a
Known filled neighbour to Trial (flag 2) and give it a trial value. -/
def _calcInitialTrialValues (m : Mesh N M) (v : Fin N → MF) (flag : Fin N → ℕ) :
    Except Err ((Fin N → MF) × (Fin N → ℕ)) :=
  let flag2 : Fin N → ℕ := fun c =>
    if sumAdjFlag m flag c = 0 then flag c else if flag c = 1 then 1 else 2
  match phase2Vals m flag2 ((List.finRange N).filter (fun c => flag2 c == 2)) v with
  | .error e => .error e
  | .ok v2 => .ok (v2, flag2)

/-- The mutable state of the marching loop: the field, the status row, and
the worklist `trialCellIDs` in its Python list order. -/
structure MState (N : ℕ) where
  var : Fin N → MF
  flag : Fin N → ℕ
  trial : List (Fin N)

/-- `trialCellIDs[argmin(abs(take(var, trialCellIDs)))]`: the first list
entry attaining the least absolute value. -/
def argminAbs (var : Fin N → MF) : List (Fin N) → Option (Fin N)
  | [] => none
  | c :: cs =>
    match argminAbs var cs with
    | none => some c
    | some b => if keyLt (mAbs (var b)) (mAbs (var c)) then some b else some c

/-- The inner `for adjCellID in cellToCellIDs` of `_calcRemainingValues`:
every non-Known filled neighbour is recomputed; a previously Unknown one
becomes Trial and is appended to the worklist. -/
def relaxNeighbors (m : Mesh N M) (c : Fin N) :
    List (Fin M) → MState N → Except Err (MState N)
  | [], st => .ok st
  | j :: js, st =>
    let adj := filledNbr m c j
    if st.flag adj = 1 then relaxNeighbors m c js st
    else
      match _calcTrialValue m st.var st.flag adj with
      | .error e => .error e
      | .ok val =>
        if st.flag adj = 0 then
          relaxNeighbors m c js
            ⟨Function.update st.var adj val, Function.update st.flag adj 2,
              st.trial ++ [adj]⟩
        else
          relaxNeighbors m c js ⟨Function.update st.var adj val, st.flag, st.trial⟩

/-- One iteration of the marching loop: select, finalise (flag 1, remove
from the worklist), then relax the neighbours under the updated flags. -/
def marchStep (m : Mesh N M) (st : MState N) : Except Err (MState N) :=
  match argminAbs st.var st.trial with
  | none => .ok st
  | some c =>
    relaxNeighbors m c (List.finRange M)
      ⟨st.var, Function.update st.flag c 1, st.trial.erase c⟩

/-- The number of still-Unknown cells. -/
def zerosCount (flag : Fin N → ℕ) : ℕ :=
  ((List.finRange N).filter (fun c => flag c == 0)).length

/-- Termination measure of the marching loop: worklist length plus Unknown
count.  Every iteration strictly decreases it. -/
def measureM (st : MState N) : ℕ := st.trial.length + zerosCount st.flag

/-- The `while len(trialCellIDs) > 0` loop, run on explicit fuel so that
termination is a theorem rather than a definitional assumption; `none`
means the fuel ran out before the worklist emptied. -/
def marchFuel (m : Mesh N M) : ℕ → MState N → Option (Except Err (MState N))
  | 0, st => if st.trial = [] then some (.ok st) else none
  | n + 1, st =>
    if st.trial = [] then some (.ok st)
    else
      match marchStep m st with
      | .error e => some (.error e)
      | .ok st2 => marchFuel m n st2

/-- Phase 4, `_calcRemainingValues`, with the fuel set to the termination
measure; the default branch is dead (the termination theorem shows the fuel
always suffices). -/
def _calcRemainingValues (m : Mesh N M) (st : MState N) : Except Err (MState N) :=
  (marchFuel m (measureM st) st).getD (.error .nameError)

/-- The state entering the marching loop: phases 1 and 2 followed by
`nonzero(where(setValueFlag == 2, 1, 0))`, which lists the initial Trial
cells in ascending index order. -/
def solveState (m : Mesh N M) (v0 : Fin N → ℚ) : Except Err (MState N) :=
  let p1 := _calcInterfaceValues m (fun c => some (v0 c))
  match _calcInitialTrialValues m p1.1 p1.2 with
  | .error e => .error e
  | .ok p2 => .ok ⟨p2.1, p2.2, (List.finRange N).filter (fun c => p2.2 c == 2)⟩

/-- `solve`: the three phases in sequence.  Note the source performs no
validation of the initial field. -/
def solve (m : Mesh N M) (v0 : Fin N → ℚ) : Except Err (MState N) :=
  match solveState m v0 with
  | .error e => .error e
  | .ok st => _calcRemainingValues m st

end FastMarch

deriving instance DecidableEq for Except

namespace FastMarch

attribute [local semireducible] Rat.add Rat.mul Rat.inv Rat.sub

/-! ### Concrete meshes for witnesses and counterexamples -/

/-- A 5-cell chain `0 - 1 - 2 - 3 - 4` with centre distances
`d(0,1) = d(1,2) = 1`, `d(2,3) = 2`, `d(3,4) = 3`; every stored face normal
is `(1, 0)`, so cell 2's two faces have parallel normals (legal for the
required mesh interface, degenerate geometry). -/
def mesh1 : Mesh 5 2 where
  nbr := fun c j =>
    match c.val, j.val with
    | 0, 0 => some 1
    | 1, 0 => some 0
    | 1, 1 => some 2
    | 2, 0 => some 1
    | 2, 1 => some 3
    | 3, 0 => some 2
    | 3, 1 => some 4
    | 4, 0 => some 3
    | _, _ => none
  dAP := fun c j =>
    match c.val, j.val with
    | 2, 1 => 2
    | 3, 0 => 2
    | 3, 1 => 3
    | 4, 0 => 3
    | _, _ => 1
  normal := fun _ _ => (1, 0)
  area := fun _ _ => 1
  dAP_pos := by decide

/-- Initial field on `mesh1`: negative at the two ends, positive inside —
it satisfies the input contract. -/
def v01 : Fin 5 → ℚ := fun c =>
  match c.val with
  | 0 => -1
  | 4 => -1
  | _ => 1

/-- A 5-cell star mesh: edges `0 - 1` (distance 1), `1 - 3` (distance 2),
`1 - 4` (distance 1) and `4 - 2` (distance 1). -/
def mesh2 : Mesh 5 3 where
  nbr := fun c j =>
    match c.val, j.val with
    | 0, 0 => some 1
    | 1, 0 => some 0
    | 1, 1 => some 3
    | 1, 2 => some 4
    | 2, 0 => some 4
    | 3, 0 => some 1
    | 4, 0 => some 1
    | 4, 1 => some 2
    | _, _ => none
  dAP := fun c j =>
    match c.val, j.val with
    | 1, 1 => 2
    | 3, 0 => 2
    | _, _ => 1
  normal := fun _ _ => (1, 0)
  area := fun _ _ => 1
  dAP_pos := by decide

/-- Initial field on `mesh2`: negative only at cell 0. -/
def v02 : Fin 5 → ℚ := fun c =>
  match c.val with
  | 0 => -1
  | _ => 1

/-- A two-cell mesh, each cell the other's single neighbour at distance 1. -/
def mesh4 : Mesh 2 1 where
  nbr := fun c _ => some ⟨1 - c.val, by omega⟩
  dAP := fun _ _ => 1
  normal := fun _ _ => (1, 0)
  area := fun _ _ => 1
  dAP_pos := by decide

/-- An all-positive field on `mesh4`: it violates the input contract (no
negative value, hence no sign change anywhere). -/
def v04 : Fin 2 → ℚ := fun c => 1 + (c.val : ℚ)

/-- A field on `mesh4` with a sign change. -/
def v04s : Fin 2 → ℚ := fun c => if c.val = 0 then -1 else 1

/-- A single isolated cell: its only face slot is a boundary slot. -/
def mesh5 : Mesh 1 1 where
  nbr := fun _ _ => none
  dAP := fun _ _ => 1
  normal := fun _ _ => (1, 0)
  area := fun _ _ => 1
  dAP_pos := by decide

/-- A 3-cell mesh where cell 2 has cells 0 and 1 as its two neighbours, at
distance 1 with orthogonal normals. -/
def mesh7 : Mesh 3 2 where
  nbr := fun c j =>
    match c.val, j.val with
    | 0, 0 => some 2
    | 1, 0 => some 2
    | 2, 0 => some 0
    | 2, 1 => some 1
    | _, _ => none
  dAP := fun _ _ => 1
  normal := fun c j =>
    match c.val, j.val with
    | 2, 1 => (0, 1)
    | _, _ => (1, 0)
  area := fun _ _ => 1
  dAP_pos := by decide

/-- Field for the `mesh7` trial-value witness. -/
def v07 : Fin 3 → MF := fun c =>
  match c.val with
  | 0 => some 1
  | 1 => some 2
  | _ => some 1

/-- Flags for the `mesh7` trial-value witness: cells 0 and 1 Known. -/
def f07 : Fin 3 → ℕ := fun c => if c.val = 2 then 0 else 1

/-! ### Basic facts about the value arithmetic -/

@[simp] theorem mAdd_some (a b : ℚ) : mAdd (some a) (some b) = some (a + b) := rfl

@[simp] theorem mSub_some (a b : ℚ) : mSub (some a) (some b) = some (a - b) := rfl

@[simp] theorem mMul_some (a b : ℚ) : mMul (some a) (some b) = some (a * b) := rfl

@[simp] theorem mNeg_some (a : ℚ) : mNeg (some a) = some (-a) := rfl

@[simp] theorem mAbs_some (a : ℚ) : mAbs (some a) = some |a| := rfl

@[simp] theorem mAdd_none_right (a : MF) : mAdd a none = none := by cases a <;> rfl

@[simp] theorem mSub_none_right (a : MF) : mSub a none = none := by cases a <;> rfl

@[simp] theorem mDiv_none_left (b : MF) : mDiv none b = none := rfl

/-- Order facts about the key comparisons (`none` is the greatest key). -/
theorem keyLt_irrefl (a : MF) : keyLt a a = false := by
  cases a <;> simp [keyLt]

theorem keyLt_asymm {a b : MF} (h : keyLt a b = true) : keyLt b a = false := by
  cases a <;> cases b <;> simp_all [keyLt] <;> linarith

theorem keyLe_of_not_keyLt {a b : MF} (h : keyLt a b = false) : keyLe b a = true := by
  cases a <;> cases b <;> simp_all [keyLt, keyLe] <;> linarith

theorem keyLt_of_keyLe_of_keyLt {a b c : MF} (hab : keyLe a b = true)
    (hbc : keyLt b c = true) : keyLt a c = true := by
  cases a <;> cases b <;> cases c <;> simp_all [keyLt, keyLe] <;> linarith

theorem keyLe_trans {a b c : MF} (hab : keyLe a b = true) (hbc : keyLe b c = true) :
    keyLe a c = true := by
  cases a <;> cases b <;> cases c <;> simp_all [keyLe] <;> linarith

theorem keyLe_of_keyLt {a b : MF} (h : keyLt a b = true) : keyLe a b = true := by
  cases a <;> cases b <;> simp_all [keyLt, keyLe] <;> linarith

/-! ### The stable slot sort: permutation and sortedness -/

theorem insertSlot_perm (key : Fin M → MF) (j : Fin M) (l : List (Fin M)) :
    List.Perm (insertSlot key j l) (j :: l) := by
  induction l with
  | nil => simp [insertSlot]
  | cons k ks ih =>
    by_cases h : keyLt (key j) (key k) = true
    · rw [insertSlot, if_pos h]
    · rw [insertSlot, if_neg h]
      exact (ih.cons k).trans (List.Perm.swap j k ks)

theorem sortSlots_perm (key : Fin M → MF) (l : List (Fin M)) :
    List.Perm (sortSlots key l) l := by
  induction l with
  | nil => simp [sortSlots]
  | cons j js ih =>
    exact (insertSlot_perm key j (sortSlots key js)).trans (ih.cons j)

theorem pairwise_insertSlot (key : Fin M → MF) (j : Fin M) (l : List (Fin M))
    (hl : l.Pairwise (fun a b => keyLe (key a) (key b) = true)) :
    (insertSlot key j l).Pairwise (fun a b => keyLe (key a) (key b) = true) := by
  induction l with
  | nil => simp [insertSlot]
  | cons k ks ih =>
    rcases List.pairwise_cons.mp hl with ⟨hk, hks⟩
    by_cases h : keyLt (key j) (key k) = true
    · rw [insertSlot, if_pos h]
      refine List.pairwise_cons.mpr ⟨?_, hl⟩
      intro x hx
      rcases List.mem_cons.mp hx with rfl | hx'
      · exact keyLe_of_keyLt h
      · exact keyLe_trans (keyLe_of_keyLt h) (hk x hx')
    · rw [insertSlot, if_neg h]
      refine List.pairwise_cons.mpr ⟨?_, ih hks⟩
      intro x hx
      rcases List.mem_cons.mp ((insertSlot_perm key j ks).mem_iff.mp hx) with rfl | hx'
      · exact keyLe_of_not_keyLt (by simpa using h)
      · exact hk x hx'

theorem pairwise_sortSlots (key : Fin M → MF) (l : List (Fin M)) :
    (sortSlots key l).Pairwise (fun a b => keyLe (key a) (key b) = true) := by
  induction l with
  | nil => simp [sortSlots]
  | cons j js ih => exact pairwise_insertSlot key j _ ih

/-! ### The first-wins argmin over slot candidates (phase 1) -/

theorem slotArgmin_cons_nf (f : Fin M → Option ℚ) {j : Fin M} (js : List (Fin M))
    (hj : f j = none) : slotArgmin f (j :: js) = slotArgmin f js := by
  simp [slotArgmin, hj]

theorem slotArgmin_cons_last {j : Fin M} (js : List (Fin M)) {q : ℚ}
    (f : Fin M → Option ℚ) (hj : f j = some q) (hr : slotArgmin f js = none) :
    slotArgmin f (j :: js) = some j := by
  simp [slotArgmin, hj, hr]

theorem slotArgmin_cons_cmp {j b : Fin M} (js : List (Fin M)) {q qb : ℚ}
    (f : Fin M → Option ℚ) (hj : f j = some q) (hr : slotArgmin f js = some b)
    (hb : f b = some qb) :
    slotArgmin f (j :: js) = if |qb| < |q| then some b else some j := by
  simp [slotArgmin, hj, hr, hb]

theorem slotArgmin_key_isSome (f : Fin M → Option ℚ) (l : List (Fin M)) (b : Fin M)
    (h : slotArgmin f l = some b) : ∃ qb, f b = some qb := by
  induction l generalizing b with
  | nil => simp [slotArgmin] at h
  | cons j js ih =>
    cases hj : f j with
    | none => rw [slotArgmin_cons_nf f js hj] at h; exact ih b h
    | some q =>
      cases hr : slotArgmin f js with
      | none =>
        rw [slotArgmin_cons_last js f hj hr] at h
        injection h with h
        subst h
        exact ⟨q, hj⟩
      | some b' =>
        rcases ih b' hr with ⟨qb', hqb'⟩
        rw [slotArgmin_cons_cmp js f hj hr hqb'] at h
        split at h
        · injection h with h; subst h; exact ⟨qb', hqb'⟩
        · injection h with h; subst h; exact ⟨q, hj⟩

theorem slotArgmin_eq_none (f : Fin M → Option ℚ) (l : List (Fin M)) :
    slotArgmin f l = none ↔ ∀ j ∈ l, f j = none := by
  induction l with
  | nil => simp [slotArgmin]
  | cons j js ih =>
    cases hj : f j with
    | none => simp [slotArgmin_cons_nf f js hj, ih, hj]
    | some q =>
      constructor
      · intro h
        exfalso
        cases hr : slotArgmin f js with
        | none => rw [slotArgmin_cons_last js f hj hr] at h; cases h
        | some b =>
          rcases slotArgmin_key_isSome f js b hr with ⟨qb, hqb⟩
          rw [slotArgmin_cons_cmp js f hj hr hqb] at h
          split at h <;> cases h
      · intro h
        exact absurd (h j (List.mem_cons_self j js)) (by simp [hj])

theorem slotArgmin_spec (f : Fin M → Option ℚ) (l : List (Fin M)) (j : Fin M)
    (h : slotArgmin f l = some j) :
    ∃ q, f j = some q ∧
      (∃ l1 l2, l = l1 ++ j :: l2 ∧
        ∀ k ∈ l1, ∀ p, f k = some p → |q| < |p|) ∧
      (∀ k ∈ l, ∀ p, f k = some p → |q| ≤ |p|) := by
  induction l generalizing j with
  | nil => simp [slotArgmin] at h
  | cons a as ih =>
    cases ha : f a with
    | none =>
      rw [slotArgmin_cons_nf f as ha] at h
      rcases ih j h with ⟨q, hq, ⟨l1, l2, hsplit, hpre⟩, hmin⟩
      refine ⟨q, hq, ⟨a :: l1, l2, by rw [hsplit]; rfl, ?_⟩, ?_⟩
      · intro k hk p hp
        rcases List.mem_cons.mp hk with rfl | hk'
        · rw [ha] at hp; cases hp
        · exact hpre k hk' p hp
      · intro k hk p hp
        rcases List.mem_cons.mp hk with rfl | hk'
        · rw [ha] at hp; cases hp
        · exact hmin k hk' p hp
    | some qa =>
      cases hr : slotArgmin f as with
      | none =>
        rw [slotArgmin_cons_last as f ha hr] at h
        injection h with hj
        subst hj
        refine ⟨qa, ha, ⟨[], as, rfl, by simp⟩, ?_⟩
        intro k hk p hp
        rcases List.mem_cons.mp hk with rfl | hk'
        · rw [ha] at hp; injection hp with hp; subst hp; exact le_refl _
        · exact absurd hp (by simp [(slotArgmin_eq_none f as).mp hr k hk'])
      | some b =>
        rcases ih b hr with ⟨qb, hqb, ⟨l1, l2, hsplit, hpre⟩, hmin⟩
        rw [slotArgmin_cons_cmp as f ha hr hqb] at h
        by_cases hlt : |qb| < |qa|
        · rw [if_pos hlt] at h
          injection h with hj
          subst hj
          refine ⟨qb, hqb, ⟨a :: l1, l2, by rw [hsplit]; rfl, ?_⟩, ?_⟩
          · intro k hk p hp
            rcases List.mem_cons.mp hk with rfl | hk'
            · rw [ha] at hp; injection hp with hp; subst hp; exact hlt
            · exact hpre k hk' p hp
          · intro k hk p hp
            rcases List.mem_cons.mp hk with rfl | hk'
            · rw [ha] at hp; injection hp with hp; subst hp; exact le_of_lt hlt
            · exact hmin k hk' p hp
        · rw [if_neg hlt] at h
          injection h with hj
          subst hj
          refine ⟨qa, ha, ⟨[], as, rfl, by simp⟩, ?_⟩
          intro k hk p hp
          rcases List.mem_cons.mp hk with rfl | hk'
          · rw [ha] at hp; injection hp with hp; subst hp; exact le_refl _
          · exact le_trans (not_lt.mp hlt) (hmin k hk' p hp)

/-! ### The first-wins argmin over the marching worklist -/

theorem argminAbs_cons_last (var : Fin N → MF) {c : Fin N} (cs : List (Fin N))
    (hr : argminAbs var cs = none) : argminAbs var (c :: cs) = some c := by
  simp [argminAbs, hr]

theorem argminAbs_cons_cmp (var : Fin N → MF) {c b : Fin N} (cs : List (Fin N))
    (hr : argminAbs var cs = some b) :
    argminAbs var (c :: cs) =
      if keyLt (mAbs (var b)) (mAbs (var c)) then some b else some c := by
  simp [argminAbs, hr]

theorem argminAbs_eq_none (var : Fin N → MF) (l : List (Fin N)) :
    argminAbs var l = none ↔ l = [] := by
  cases l with
  | nil => simp [argminAbs]
  | cons c cs =>
    constructor
    · intro h
      exfalso
      cases hr : argminAbs var cs with
      | none => rw [argminAbs_cons_last var cs hr] at h; cases h
      | some b =>
        rw [argminAbs_cons_cmp var cs hr] at h
        split at h <;> cases h
    · intro h; cases h

theorem argminAbs_spec (var : Fin N → MF) (l : List (Fin N)) (c : Fin N)
    (h : argminAbs var l = some c) :
    (∃ l1 l2, l = l1 ++ c :: l2 ∧
      ∀ x ∈ l1, keyLt (mAbs (var c)) (mAbs (var x)) = true) ∧
    (∀ x ∈ l, keyLt (mAbs (var x)) (mAbs (var c)) = false) := by
  induction l generalizing c with
  | nil => simp [argminAbs] at h
  | cons a as ih =>
    cases hr : argminAbs var as with
    | none =>
      rw [argminAbs_cons_last var as hr] at h
      injection h with hc
      subst hc
      have hnil : as = [] := (argminAbs_eq_none var as).mp hr
      subst hnil
      refine ⟨⟨[], [], rfl, by simp⟩, ?_⟩
      intro x hx
      rcases List.mem_cons.mp hx with rfl | hx'
      · exact keyLt_irrefl _
      · cases hx'
    | some b =>
      rcases ih b hr with ⟨⟨l1, l2, hsplit, hpre⟩, hmin⟩
      rw [argminAbs_cons_cmp var as hr] at h
      by_cases hba : keyLt (mAbs (var b)) (mAbs (var a)) = true
      · rw [if_pos hba] at h
        injection h with hc
        subst hc
        refine ⟨⟨a :: l1, l2, by rw [hsplit]; rfl, ?_⟩, ?_⟩
        · intro x hx
          rcases List.mem_cons.mp hx with rfl | hx'
          · exact hba
          · exact hpre x hx'
        · intro x hx
          rcases List.mem_cons.mp hx with rfl | hx'
          · exact keyLt_asymm hba
          · exact hmin x hx'
      · rw [if_neg hba] at h
        injection h with hc
        subst hc
        refine ⟨⟨[], as, rfl, by simp⟩, ?_⟩
        intro x hx
        rcases List.mem_cons.mp hx with rfl | hx'
        · exact keyLt_irrefl _
        · cases hxa : keyLt (mAbs (var x)) (mAbs (var a)) with
          | false => rfl
          | true =>
            have hbx : keyLe (mAbs (var b)) (mAbs (var x)) = true :=
              keyLe_of_not_keyLt (hmin x hx')
            have hlt2 : keyLt (mAbs (var b)) (mAbs (var a)) = true :=
              keyLt_of_keyLe_of_keyLt hbx hxa
            exact absurd hlt2 (by simpa using hba)

theorem argminAbs_mem (var : Fin N → MF) (l : List (Fin N)) (c : Fin N)
    (h : argminAbs var l = some c) : c ∈ l := by
  rcases argminAbs_spec var l c h with ⟨⟨l1, l2, hsplit, _⟩, _⟩
  rw [hsplit]
  exact List.mem_append_right l1 (List.mem_cons_self c l2)

/-! ### Phase 1: inversion and sign of the interface candidate -/

theorem interfaceCandidate_some {m : Mesh N M} {v : Fin N → MF} {c : Fin N}
    {j : Fin M} {q : ℚ} (h : interfaceCandidate m v c j = some q) :
    ∃ a p pa, m.nbr c j = some a ∧ v c = some p ∧ v a = some pa ∧
      p * pa < 0 ∧ q = p * m.dAP c j / |p - pa| := by
  cases hn : m.nbr c j with
  | none => simp [interfaceCandidate, hn] at h
  | some a =>
    cases hc : v c with
    | none => simp [interfaceCandidate, hn, hc] at h
    | some p =>
      cases ha : v a with
      | none => simp [interfaceCandidate, hn, hc, ha] at h
      | some pa =>
        simp only [interfaceCandidate, hn, hc, ha] at h
        by_cases hop : p * pa < 0
        · rw [if_pos hop] at h
          injection h with h
          exact ⟨a, p, pa, rfl, rfl, ha, hop, h.symm⟩
        · rw [if_neg hop] at h; cases h

theorem interfaceCandidate_eq_some (m : Mesh N M) (v : Fin N → MF) (c : Fin N)
    (j : Fin M) (a : Fin N) (p pa : ℚ) (hn : m.nbr c j = some a)
    (hc : v c = some p) (ha : v a = some pa) (hop : p * pa < 0) :
    interfaceCandidate m v c j = some (p * m.dAP c j / |p - pa|) := by
  simp [interfaceCandidate, hn, hc, ha, hop]

theorem candidate_sign (m : Mesh N M) (c : Fin N) (j : Fin M) {p pa : ℚ}
    (hop : p * pa < 0) :
    (0 < p ↔ 0 < p * m.dAP c j / |p - pa|) ∧
      (p < 0 ↔ p * m.dAP c j / |p - pa| < 0) ∧
      abs (p * m.dAP c j / |p - pa|) = abs (p * m.dAP c j / (p - pa)) := by
  have hne : p - pa ≠ 0 := by
    intro h0
    have hppa : p = pa := by linarith
    rw [hppa] at hop
    nlinarith [sq_nonneg pa]
  have habs : 0 < |p - pa| := abs_pos.mpr hne
  have hd := m.dAP_pos c j
  have hk : 0 < m.dAP c j / |p - pa| := div_pos hd habs
  have hassoc : p * m.dAP c j / |p - pa| = p * (m.dAP c j / |p - pa|) :=
    mul_div_assoc p (m.dAP c j) |p - pa|
  refine ⟨⟨fun hp => ?_, fun hq => ?_⟩, ⟨fun hp => ?_, fun hq => ?_⟩, ?_⟩
  · rw [hassoc]; exact mul_pos hp hk
  · by_contra hple
    push_neg at hple
    rw [hassoc] at hq
    nlinarith
  · rw [hassoc]; exact mul_neg_of_neg_of_pos hp hk
  · by_contra hpge
    push_neg at hpge
    rw [hassoc] at hq
    nlinarith
  · rw [abs_div, abs_div, abs_abs]

/-! ### Phase 2: cells not in the worklist are untouched -/

theorem phase2Vals_not_mem (m : Mesh N M) (flag : Fin N → ℕ) (l : List (Fin N))
    (v v2 : Fin N → MF) (c : Fin N) (hc : c ∉ l)
    (h : phase2Vals m flag l v = .ok v2) : v2 c = v c := by
  induction l generalizing v with
  | nil =>
    rw [phase2Vals] at h
    injection h with h
    subst h
    rfl
  | cons x xs ih =>
    rw [phase2Vals] at h
    cases hcv : _calcTrialValue m v flag x with
    | error e => rw [hcv] at h; cases h
    | ok val =>
      rw [hcv] at h
      have hcx : c ≠ x := fun e => hc (e ▸ List.mem_cons_self x xs)
      have hcxs : c ∉ xs := fun e => hc (List.mem_cons_of_mem x e)
      rw [ih (Function.update v x val) hcxs h]
      exact Function.update_noteq hcx val v

theorem phase2Vals_error_head (m : Mesh N M) (flag : Fin N → ℕ) (c : Fin N)
    (rest : List (Fin N)) (v : Fin N → MF) (e : Err)
    (h : _calcTrialValue m v flag c = .error e) :
    phase2Vals m flag (c :: rest) v = .error e := by
  rw [phase2Vals, h]

/-! ### Counting Unknown cells -/

theorem filter_length_mono {α : Type} (p q : α → Bool) (l : List α)
    (h : ∀ x ∈ l, p x = true → q x = true) :
    (l.filter p).length ≤ (l.filter q).length := by
  induction l with
  | nil => exact le_refl _
  | cons x xs ih =>
    have ih2 := ih fun y hy hp => h y (List.mem_cons_of_mem x hy) hp
    rw [List.filter_cons, List.filter_cons]
    cases hp : p x with
    | true =>
      have hqx := h x (List.mem_cons_self x xs) hp
      simp only [hqx, ite_true, List.length_cons]
      omega
    | false =>
      cases hq : q x with
      | false =>
        simp only [Bool.false_eq_true, ite_false]
        exact ih2
      | true =>
        simp only [Bool.false_eq_true, ite_false, ite_true, List.length_cons]
        omega

theorem filter_update_length {α : Type} [DecidableEq α] (flag : α → ℕ) (a : α)
    (b : ℕ) (l : List α) (hnd : l.Nodup) (ha : a ∈ l) (h0 : flag a = 0)
    (hb : b ≠ 0) :
    (l.filter (fun c => Function.update flag a b c == 0)).length + 1 =
      (l.filter (fun c => flag c == 0)).length := by
  induction l with
  | nil => cases ha
  | cons x xs ih =>
    rcases List.nodup_cons.mp hnd with ⟨hxn, hnd2⟩
    rw [List.filter_cons, List.filter_cons]
    by_cases hxa : x = a
    · subst hxa
      have h1 : (Function.update flag x b x == 0) = false := by
        simp [Function.update_same, hb]
      have h2 : (flag x == 0) = true := by simp [h0]
      have htail : xs.filter (fun c => Function.update flag x b c == 0) =
          xs.filter (fun c => flag c == 0) := by
        refine List.filter_congr fun y hy => ?_
        have hyx : y ≠ x := fun e => hxn (e ▸ hy)
        rw [Function.update_noteq hyx]
      rw [h1, h2, htail]
      simp
    · have ha2 : a ∈ xs := by
        rcases List.mem_cons.mp ha with h | h
        · exact absurd h.symm hxa
        · exact h
      have hsame : (Function.update flag a b x == 0) = (flag x == 0) := by
        rw [Function.update_noteq hxa]
      rw [hsame]
      have hrec := ih hnd2 ha2
      cases hfx : (flag x == 0) with
      | false =>
        simp only [Bool.false_eq_true, ite_false]
        exact hrec
      | true =>
        simp only [ite_true, List.length_cons]
        omega

theorem zerosCount_update_of_zero (flag : Fin N → ℕ) (a : Fin N) (b : ℕ)
    (h0 : flag a = 0) (hb : b ≠ 0) :
    zerosCount (Function.update flag a b) + 1 = zerosCount flag :=
  filter_update_length flag a b (List.finRange N) (List.nodup_finRange N)
    (List.mem_finRange a) h0 hb

theorem zerosCount_update_le (flag : Fin N → ℕ) (a : Fin N) (b : ℕ) (hb : b ≠ 0) :
    zerosCount (Function.update flag a b) ≤ zerosCount flag := by
  refine filter_length_mono _ _ _ fun x _ hx => ?_
  by_cases hxa : x = a
  · subst hxa
    rw [Function.update_same] at hx
    simp at hx
    exact absurd hx hb
  · rw [Function.update_noteq hxa] at hx
    exact hx

/-! ### The marching loop: equations, measure decrease, invariants -/

theorem relaxNeighbors_nil (m : Mesh N M) (c : Fin N) (st : MState N) :
    relaxNeighbors m c [] st = .ok st := rfl

theorem relaxNeighbors_cons_skip (m : Mesh N M) (c : Fin N) {j : Fin M}
    (js : List (Fin M)) (st : MState N) (h1 : st.flag (filledNbr m c j) = 1) :
    relaxNeighbors m c (j :: js) st = relaxNeighbors m c js st := by
  simp [relaxNeighbors, h1]

theorem relaxNeighbors_cons_err (m : Mesh N M) (c : Fin N) {j : Fin M}
    (js : List (Fin M)) (st : MState N) {e : Err}
    (h1 : ¬ st.flag (filledNbr m c j) = 1)
    (hcv : _calcTrialValue m st.var st.flag (filledNbr m c j) = .error e) :
    relaxNeighbors m c (j :: js) st = .error e := by
  simp [relaxNeighbors, h1, hcv]

theorem relaxNeighbors_cons_new (m : Mesh N M) (c : Fin N) {j : Fin M}
    (js : List (Fin M)) (st : MState N) {val : MF}
    (h1 : ¬ st.flag (filledNbr m c j) = 1)
    (hcv : _calcTrialValue m st.var st.flag (filledNbr m c j) = .ok val)
    (h0 : st.flag (filledNbr m c j) = 0) :
    relaxNeighbors m c (j :: js) st =
      relaxNeighbors m c js
        ⟨Function.update st.var (filledNbr m c j) val,
          Function.update st.flag (filledNbr m c j) 2,
          st.trial ++ [filledNbr m c j]⟩ := by
  simp [relaxNeighbors, h1, hcv, h0]

theorem relaxNeighbors_cons_upd (m : Mesh N M) (c : Fin N) {j : Fin M}
    (js : List (Fin M)) (st : MState N) {val : MF}
    (h1 : ¬ st.flag (filledNbr m c j) = 1)
    (hcv : _calcTrialValue m st.var st.flag (filledNbr m c j) = .ok val)
    (h0 : ¬ st.flag (filledNbr m c j) = 0) :
    relaxNeighbors m c (j :: js) st =
      relaxNeighbors m c js
        ⟨Function.update st.var (filledNbr m c j) val, st.flag, st.trial⟩ := by
  simp [relaxNeighbors, h1, hcv, h0]

theorem relaxNeighbors_measure (m : Mesh N M) (c : Fin N) (js : List (Fin M)) :
    ∀ (st st2 : MState N), relaxNeighbors m c js st = .ok st2 →
      st2.trial.length + zerosCount st2.flag ≤ st.trial.length + zerosCount st.flag := by
  induction js with
  | nil =>
    intro st st2 h
    rw [relaxNeighbors_nil] at h
    injection h with h
    subst h
    exact le_refl _
  | cons j js ih =>
    intro st st2 h
    by_cases h1 : st.flag (filledNbr m c j) = 1
    · rw [relaxNeighbors_cons_skip m c js st h1] at h
      exact ih st st2 h
    · cases hcv : _calcTrialValue m st.var st.flag (filledNbr m c j) with
      | error e => rw [relaxNeighbors_cons_err m c js st h1 hcv] at h; cases h
      | ok val =>
        by_cases h0 : st.flag (filledNbr m c j) = 0
        · rw [relaxNeighbors_cons_new m c js st h1 hcv h0] at h
          have hrec := ih _ _ h
          have hz := zerosCount_update_of_zero st.flag (filledNbr m c j) 2 h0
            (by decide)
          simp only [List.length_append, List.length_cons, List.length_nil] at hrec
          omega
        · rw [relaxNeighbors_cons_upd m c js st h1 hcv h0] at h
          exact ih ⟨Function.update st.var (filledNbr m c j) val, st.flag, st.trial⟩
            st2 h

theorem marchStep_measure (m : Mesh N M) (st st2 : MState N)
    (hne : st.trial ≠ []) (h : marchStep m st = .ok st2) :
    measureM st2 < measureM st := by
  simp only [marchStep] at h
  cases hc : argminAbs st.var st.trial with
  | none => exact absurd ((argminAbs_eq_none _ _).mp hc) hne
  | some c =>
    simp only [hc] at h
    have hmem := argminAbs_mem st.var st.trial c hc
    have hrelax := relaxNeighbors_measure m c (List.finRange M) _ _ h
    have herase := List.length_erase_of_mem hmem
    have hpos : 0 < st.trial.length := List.length_pos.mpr hne
    have hz := zerosCount_update_le st.flag c 1 (by decide)
    simp only [measureM] at *
    omega

theorem marchFuel_complete (m : Mesh N M) : ∀ (n : ℕ) (st : MState N),
    measureM st ≤ n → (marchFuel m n st).isSome := by
  intro n
  induction n with
  | zero =>
    intro st hm
    have hlen : st.trial.length = 0 := by
      simp only [measureM] at hm
      omega
    have hnil : st.trial = [] := List.length_eq_zero.mp hlen
    simp [marchFuel, hnil]
  | succ n ih =>
    intro st hm
    by_cases hnil : st.trial = []
    · simp [marchFuel, hnil]
    · cases hstep : marchStep m st with
      | error e => simp [marchFuel, hnil, hstep]
      | ok st2 =>
        have hlt := marchStep_measure m st st2 hnil hstep
        have hm2 : measureM st2 ≤ n := by omega
        simp only [marchFuel, if_neg hnil, hstep]
        exact ih st2 hm2

theorem marchFuel_ok_trial_nil (m : Mesh N M) : ∀ (n : ℕ) (st st2 : MState N),
    marchFuel m n st = some (.ok st2) → st2.trial = [] := by
  intro n
  induction n with
  | zero =>
    intro st st2 h
    by_cases hnil : st.trial = []
    · simp only [marchFuel, if_pos hnil] at h
      injection h with h
      injection h with h
      subst h
      exact hnil
    · simp only [marchFuel, if_neg hnil] at h
      cases h
  | succ n ih =>
    intro st st2 h
    by_cases hnil : st.trial = []
    · simp only [marchFuel, if_pos hnil] at h
      injection h with h
      injection h with h
      subst h
      exact hnil
    · simp only [marchFuel, if_neg hnil] at h
      cases hstep : marchStep m st with
      | error e =>
        simp only [hstep] at h
        injection h with h
        cases h
      | ok st3 =>
        simp only [hstep] at h
        exact ih st3 st2 h

theorem relaxNeighbors_known (m : Mesh N M) (c : Fin N) (js : List (Fin M)) :
    ∀ (st st2 : MState N) (x : Fin N), st.flag x = 1 →
      relaxNeighbors m c js st = .ok st2 →
      st2.flag x = 1 ∧ st2.var x = st.var x := by
  induction js with
  | nil =>
    intro st st2 x hx h
    rw [relaxNeighbors_nil] at h
    injection h with h
    subst h
    exact ⟨hx, rfl⟩
  | cons j js ih =>
    intro st st2 x hx h
    by_cases h1 : st.flag (filledNbr m c j) = 1
    · rw [relaxNeighbors_cons_skip m c js st h1] at h
      exact ih st st2 x hx h
    · have hxadj : x ≠ filledNbr m c j := fun e => h1 (e ▸ hx)
      cases hcv : _calcTrialValue m st.var st.flag (filledNbr m c j) with
      | error e => rw [relaxNeighbors_cons_err m c js st h1 hcv] at h; cases h
      | ok val =>
        by_cases h0 : st.flag (filledNbr m c j) = 0
        · rw [relaxNeighbors_cons_new m c js st h1 hcv h0] at h
          have hx2 : (Function.update st.flag (filledNbr m c j) 2) x = 1 := by
            rw [Function.update_noteq hxadj]
            exact hx
          rcases ih ⟨Function.update st.var (filledNbr m c j) val,
            Function.update st.flag (filledNbr m c j) 2,
            st.trial ++ [filledNbr m c j]⟩ st2 x hx2 h with ⟨hf, hv⟩
          exact ⟨hf, hv.trans (Function.update_noteq hxadj val st.var)⟩
        · rw [relaxNeighbors_cons_upd m c js st h1 hcv h0] at h
          rcases ih ⟨Function.update st.var (filledNbr m c j) val, st.flag,
            st.trial⟩ st2 x hx h with ⟨hf, hv⟩
          exact ⟨hf, hv.trans (Function.update_noteq hxadj val st.var)⟩

theorem marchStep_known (m : Mesh N M) (st st2 : MState N) (x : Fin N)
    (hx : st.flag x = 1) (h : marchStep m st = .ok st2) :
    st2.flag x = 1 ∧ st2.var x = st.var x := by
  simp only [marchStep] at h
  cases hc : argminAbs st.var st.trial with
  | none =>
    simp only [hc] at h
    injection h with h
    subst h
    exact ⟨hx, rfl⟩
  | some c =>
    simp only [hc] at h
    have hx2 : (Function.update st.flag c 1) x = 1 := by
      by_cases hxc : x = c
      · subst hxc; rw [Function.update_same]
      · rw [Function.update_noteq hxc]; exact hx
    exact relaxNeighbors_known m c (List.finRange M)
      ⟨st.var, Function.update st.flag c 1, st.trial.erase c⟩ st2 x hx2 h

theorem marchFuel_known (m : Mesh N M) : ∀ (n : ℕ) (st st2 : MState N) (x : Fin N),
    marchFuel m n st = some (.ok st2) → st.flag x = 1 →
    st2.flag x = 1 ∧ st2.var x = st.var x := by
  intro n
  induction n with
  | zero =>
    intro st st2 x h hx
    by_cases hnil : st.trial = []
    · simp only [marchFuel, if_pos hnil] at h
      injection h with h
      injection h with h
      subst h
      exact ⟨hx, rfl⟩
    · simp only [marchFuel, if_neg hnil] at h
      cases h
  | succ n ih =>
    intro st st2 x h hx
    by_cases hnil : st.trial = []
    · simp only [marchFuel, if_pos hnil] at h
      injection h with h
      injection h with h
      subst h
      exact ⟨hx, rfl⟩
    · simp only [marchFuel, if_neg hnil] at h
      cases hstep : marchStep m st with
      | error e =>
        simp only [hstep] at h
        injection h with h
        cases h
      | ok st3 =>
        simp only [hstep] at h
        rcases marchStep_known m st st3 x hx hstep with ⟨hf3, hv3⟩
        rcases ih st3 st2 x h hf3 with ⟨hf, hv⟩
        exact ⟨hf, hv.trans hv3⟩

theorem relaxNeighbors_unknown_back (m : Mesh N M) (c : Fin N) (js : List (Fin M)) :
    ∀ (st st2 : MState N) (x : Fin N), relaxNeighbors m c js st = .ok st2 →
      st2.flag x = 0 → st.flag x = 0 ∧ st2.var x = st.var x := by
  induction js with
  | nil =>
    intro st st2 x h hx
    rw [relaxNeighbors_nil] at h
    injection h with h
    subst h
    exact ⟨hx, rfl⟩
  | cons j js ih =>
    intro st st2 x h hx
    by_cases h1 : st.flag (filledNbr m c j) = 1
    · rw [relaxNeighbors_cons_skip m c js st h1] at h
      exact ih st st2 x h hx
    · cases hcv : _calcTrialValue m st.var st.flag (filledNbr m c j) with
      | error e => rw [relaxNeighbors_cons_err m c js st h1 hcv] at h; cases h
      | ok val =>
        by_cases h0 : st.flag (filledNbr m c j) = 0
        · rw [relaxNeighbors_cons_new m c js st h1 hcv h0] at h
          rcases ih ⟨Function.update st.var (filledNbr m c j) val,
            Function.update st.flag (filledNbr m c j) 2,
            st.trial ++ [filledNbr m c j]⟩ st2 x h hx with ⟨hf, hv⟩
          have hf2 : Function.update st.flag (filledNbr m c j) 2 x = 0 := hf
          have hv2 : st2.var x = Function.update st.var (filledNbr m c j) val x := hv
          by_cases hxadj : x = filledNbr m c j
          · subst hxadj
            rw [Function.update_same] at hf2
            cases hf2
          · rw [Function.update_noteq hxadj] at hf2
            exact ⟨hf2, hv2.trans (Function.update_noteq hxadj val st.var)⟩
        · rw [relaxNeighbors_cons_upd m c js st h1 hcv h0] at h
          rcases ih ⟨Function.update st.var (filledNbr m c j) val, st.flag,
            st.trial⟩ st2 x h hx with ⟨hf, hv⟩
          have hf2 : st.flag x = 0 := hf
          have hv2 : st2.var x = Function.update st.var (filledNbr m c j) val x := hv
          by_cases hxadj : x = filledNbr m c j
          · subst hxadj
            exact absurd hf2 h0
          · exact ⟨hf2, hv2.trans (Function.update_noteq hxadj val st.var)⟩

theorem marchStep_unknown_back (m : Mesh N M) (st st2 : MState N) (x : Fin N)
    (h : marchStep m st = .ok st2) (hx : st2.flag x = 0) :
    st.flag x = 0 ∧ st2.var x = st.var x := by
  simp only [marchStep] at h
  cases hc : argminAbs st.var st.trial with
  | none =>
    simp only [hc] at h
    injection h with h
    subst h
    exact ⟨hx, rfl⟩
  | some c =>
    simp only [hc] at h
    rcases relaxNeighbors_unknown_back m c (List.finRange M)
      ⟨st.var, Function.update st.flag c 1, st.trial.erase c⟩ st2 x h hx with ⟨hf, hv⟩
    have hf2 : Function.update st.flag c 1 x = 0 := hf
    have hv2 : st2.var x = st.var x := hv
    by_cases hxc : x = c
    · subst hxc
      rw [Function.update_same] at hf2
      cases hf2
    · rw [Function.update_noteq hxc] at hf2
      exact ⟨hf2, hv2⟩

theorem marchFuel_unknown_back (m : Mesh N M) : ∀ (n : ℕ) (st st2 : MState N)
    (x : Fin N), marchFuel m n st = some (.ok st2) → st2.flag x = 0 →
    st.flag x = 0 ∧ st2.var x = st.var x := by
  intro n
  induction n with
  | zero =>
    intro st st2 x h hx
    by_cases hnil : st.trial = []
    · simp only [marchFuel, if_pos hnil] at h
      injection h with h
      injection h with h
      subst h
      exact ⟨hx, rfl⟩
    · simp only [marchFuel, if_neg hnil] at h
      cases h
  | succ n ih =>
    intro st st2 x h hx
    by_cases hnil : st.trial = []
    · simp only [marchFuel, if_pos hnil] at h
      injection h with h
      injection h with h
      subst h
      exact ⟨hx, rfl⟩
    · simp only [marchFuel, if_neg hnil] at h
      cases hstep : marchStep m st with
      | error e =>
        simp only [hstep] at h
        injection h with h
        cases h
      | ok st3 =>
        simp only [hstep] at h
        rcases ih st3 st2 x h hx with ⟨hf3, hv3⟩
        rcases marchStep_unknown_back m st st3 x hstep hf3 with ⟨hf, hv⟩
        exact ⟨hf, hv3.trans hv⟩

/-! ### Further phase lemmas -/

theorem interfaceValues_unflagged (m : Mesh N M) (v : Fin N → MF) (c : Fin N)
    (h : slotArgmin (interfaceCandidate m v c) (List.finRange M) = none) :
    (_calcInterfaceValues m v).1 c = v c ∧ (_calcInterfaceValues m v).2 c = 0 := by
  constructor <;> simp [_calcInterfaceValues, h]

theorem interfaceValues_flagged (m : Mesh N M) (v : Fin N → MF) (c : Fin N)
    {j : Fin M} (h : slotArgmin (interfaceCandidate m v c) (List.finRange M) = some j) :
    (_calcInterfaceValues m v).1 c = interfaceCandidate m v c j ∧
      (_calcInterfaceValues m v).2 c = 1 := by
  constructor <;> simp [_calcInterfaceValues, h]

theorem marchFuel_nil (m : Mesh N M) (st : MState N) (h : st.trial = []) :
    ∀ n, marchFuel m n st = some (.ok st) := by
  intro n
  cases n <;> simp [marchFuel, h]

/-! ### Claim theorems -/

/-- Claim C1, amended.  The original claim — after `solve()` every cell's sign
equals its initial sign, for every mesh and contract-satisfying field — is
false (see the counterexample): the quadratic trial update can flip a sign
when the two causal neighbours have parallel normals.  What does hold, for
every mesh and every initial field, is that the Interface Classifier phase
preserves the sign of every cell's stored value: the classifier writes a
value of the cell's own sign, or leaves the cell untouched. -/
theorem claim_C1_classifier_sign (m : Mesh N M) (v : Fin N → ℚ) (c : Fin N) :
    ∃ w, (_calcInterfaceValues m (fun x => some (v x))).1 c = some w ∧
      (0 < v c ↔ 0 < w) ∧ (v c < 0 ↔ w < 0) := by
  cases hj : slotArgmin (interfaceCandidate m (fun x => some (v x)) c)
      (List.finRange M) with
  | none =>
    exact ⟨v c, (interfaceValues_unflagged m _ c hj).1, Iff.rfl, Iff.rfl⟩
  | some j =>
    rcases slotArgmin_key_isSome _ _ j hj with ⟨q, hq⟩
    rcases interfaceCandidate_some hq with ⟨a, p, pa, hn, hc, ha, hop, hqe⟩
    have hp : p = v c := by injection hc with h; exact h.symm
    subst hp
    rcases candidate_sign m c j hop with ⟨h1, h2, _⟩
    refine ⟨q, ?_, ?_, ?_⟩
    · rw [(interfaceValues_flagged m _ c hj).1, hq]
    · rw [hqe]; exact h1
    · rw [hqe]; exact h2

/-- Counterexample to claim C1 as stated: on `mesh1` with the
contract-satisfying initial field `v01` (negative at cells 0 and 4, positive
elsewhere), `solve` completes and leaves cell 2 — initially `+1` — at the
negative value `-1/2`: the quadratic trial update flipped its sign. -/
theorem claim_C1_counterexample :
    v01 0 < 0 ∧ 0 < v01 1 ∧ 0 < v01 2 ∧ v01 4 < 0 ∧
    (solve mesh1 v01).map (fun st => st.var 2) = Except.ok (some (-(1/2) : ℚ)) ∧
    (-(1/2) : ℚ) < 0 := by decide

/-- Claim C3: the Interface Classifier.  A cell with an opposite-sign
neighbour is overwritten with the shortest candidate
`phi * d / abs(phi - phiAdj)` (whose magnitude equals that of the linear
interpolation formula `phi * d / (phi - phiAdj)` and whose sign is the cell's
own), the first slot winning exact ties, and is marked Known (flag 1); a cell
with no opposite-sign neighbour keeps its value and stays Unknown (flag 0). -/
theorem claim_C3_interface_classifier (m : Mesh N M) (v : Fin N → ℚ) (c : Fin N) :
    ((∃ j a, m.nbr c j = some a ∧ v c * v a < 0) →
      ∃ j a, m.nbr c j = some a ∧ v c * v a < 0 ∧
        slotArgmin (interfaceCandidate m (fun x => some (v x)) c)
          (List.finRange M) = some j ∧
        (_calcInterfaceValues m (fun x => some (v x))).1 c =
          some (v c * m.dAP c j / |v c - v a|) ∧
        abs (v c * m.dAP c j / |v c - v a|) = abs (v c * m.dAP c j / (v c - v a)) ∧
        (0 < v c ↔ 0 < v c * m.dAP c j / |v c - v a|) ∧
        (v c < 0 ↔ v c * m.dAP c j / |v c - v a| < 0) ∧
        (∀ k b, m.nbr c k = some b → v c * v b < 0 →
          abs (v c * m.dAP c j / |v c - v a|) ≤ abs (v c * m.dAP c k / |v c - v b|)) ∧
        (∀ k b, m.nbr c k = some b → v c * v b < 0 → k < j →
          abs (v c * m.dAP c j / |v c - v a|) < abs (v c * m.dAP c k / |v c - v b|)) ∧
        (_calcInterfaceValues m (fun x => some (v x))).2 c = 1) ∧
    ((∀ j a, m.nbr c j = some a → ¬ v c * v a < 0) →
      (_calcInterfaceValues m (fun x => some (v x))).1 c = some (v c) ∧
      (_calcInterfaceValues m (fun x => some (v x))).2 c = 0) := by
  constructor
  · rintro ⟨j0, a0, hn0, hop0⟩
    have hcand0 : interfaceCandidate m (fun x => some (v x)) c j0 =
        some (v c * m.dAP c j0 / |v c - v a0|) :=
      interfaceCandidate_eq_some m _ c j0 a0 (v c) (v a0) hn0 rfl rfl hop0
    cases hj : slotArgmin (interfaceCandidate m (fun x => some (v x)) c)
        (List.finRange M) with
    | none =>
      exact absurd hcand0
        (by simp [(slotArgmin_eq_none _ _).mp hj j0 (List.mem_finRange j0)])
    | some j =>
      rcases slotArgmin_spec _ _ j hj with ⟨q, hq, ⟨l1, l2, hsplit, hpre⟩, hmin⟩
      rcases interfaceCandidate_some hq with ⟨a, p, pa, hn, hc, ha, hop, hqe⟩
      have hp : p = v c := by injection hc with h; exact h.symm
      subst hp
      have hpa : pa = v a := by injection ha with h; exact h.symm
      subst hpa
      rcases candidate_sign m c j hop with ⟨hs1, hs2, habs⟩
      have hvq : (_calcInterfaceValues m (fun x => some (v x))).1 c =
          some (v c * m.dAP c j / |v c - v a|) := by
        rw [(interfaceValues_flagged m _ c hj).1, hq, hqe]
      have hminP : ∀ k b, m.nbr c k = some b → v c * v b < 0 →
          abs (v c * m.dAP c j / |v c - v a|) ≤ abs (v c * m.dAP c k / |v c - v b|) := by
        intro k b hnk hopk
        have hck : interfaceCandidate m (fun x => some (v x)) c k =
            some (v c * m.dAP c k / |v c - v b|) :=
          interfaceCandidate_eq_some m _ c k b (v c) (v b) hnk rfl rfl hopk
        have := hmin k (List.mem_finRange k) _ hck
        rw [hqe] at this
        exact this
      have hpw := List.pairwise_lt_finRange M
      rw [hsplit] at hpw
      rcases List.pairwise_append.mp hpw with ⟨_, hpw2, hcross⟩
      have hfirst : ∀ k b, m.nbr c k = some b → v c * v b < 0 → k < j →
          abs (v c * m.dAP c j / |v c - v a|) < abs (v c * m.dAP c k / |v c - v b|) := by
        intro k b hnk hopk hkj
        have hck : interfaceCandidate m (fun x => some (v x)) c k =
            some (v c * m.dAP c k / |v c - v b|) :=
          interfaceCandidate_eq_some m _ c k b (v c) (v b) hnk rfl rfl hopk
        have hkmem : k ∈ l1 ++ j :: l2 := by
          rw [← hsplit]; exact List.mem_finRange k
        have hk1 : k ∈ l1 := by
          rcases List.mem_append.mp hkmem with hk | hk
          · exact hk
          · rcases List.mem_cons.mp hk with rfl | hk2
            · exact absurd hkj (lt_irrefl k)
            · rcases List.pairwise_cons.mp hpw2 with ⟨hj2, _⟩
              exact absurd hkj (asymm (hj2 k hk2))
        have := hpre k hk1 _ hck
        rw [hqe] at this
        exact this
      exact ⟨j, a, hn, hop, rfl, hvq, habs, hs1, hs2, hminP, hfirst,
        (interfaceValues_flagged m _ c hj).2⟩
  · intro hno
    have hnone : ∀ j ∈ List.finRange M,
        interfaceCandidate m (fun x => some (v x)) c j = none := by
      intro j _
      cases hcj : interfaceCandidate m (fun x => some (v x)) c j with
      | none => rfl
      | some q =>
        rcases interfaceCandidate_some hcj with ⟨a, p, pa, hn, hc, ha, hop, _⟩
        have hp : p = v c := by injection hc with h; exact h.symm
        have hpa2 : pa = v a := by injection ha with h; exact h.symm
        subst hp
        subst hpa2
        exact absurd hop (hno j a hn)
    exact interfaceValues_unflagged m _ c ((slotArgmin_eq_none _ _).mpr hnone)

/-- Claim C4, amended.  The original claim — `solve` fails at entry with an
Invalid Input error when the field has no sign change — is false: `solve`
performs no validation at all.  What holds: whenever no two adjacent cells
have strictly opposite signs (in particular whenever the field lacks a
positive or lacks a negative value), `solve` silently returns, leaving every
value unchanged and every cell Unknown. -/
theorem claim_C4_silent_return (m : Mesh N M) (v : Fin N → ℚ)
    (hno : ∀ c j a, m.nbr c j = some a → ¬ v c * v a < 0) :
    ∃ st, solve m v = Except.ok st ∧ st.trial = [] ∧
      (∀ c, st.var c = some (v c)) ∧ (∀ c, st.flag c = 0) := by
  have hcand : ∀ (c : Fin N) (j : Fin M),
      interfaceCandidate m (fun x => some (v x)) c j = none := by
    intro c j
    cases hcj : interfaceCandidate m (fun x => some (v x)) c j with
    | none => rfl
    | some q =>
      rcases interfaceCandidate_some hcj with ⟨a, p, pa, hn, hc, ha, hop, _⟩
      have hp : p = v c := by injection hc with h; exact h.symm
      have hpa : pa = v a := by injection ha with h; exact h.symm
      subst hp
      subst hpa
      exact absurd hop (hno c j a hn)
  have hargmin : ∀ c : Fin N,
      slotArgmin (interfaceCandidate m (fun x => some (v x)) c)
        (List.finRange M) = none :=
    fun c => (slotArgmin_eq_none _ _).mpr fun j _ => hcand c j
  have hvar1 : ∀ c, (_calcInterfaceValues m (fun x => some (v x))).1 c = some (v c) :=
    fun c => (interfaceValues_unflagged m _ c (hargmin c)).1
  have hflag1 : ∀ c, (_calcInterfaceValues m (fun x => some (v x))).2 c = 0 :=
    fun c => (interfaceValues_unflagged m _ c (hargmin c)).2
  have hsum : ∀ c, sumAdjFlag m (_calcInterfaceValues m (fun x => some (v x))).2 c = 0 := by
    intro c
    refine List.sum_eq_zero fun x hx => ?_
    rcases List.mem_map.mp hx with ⟨j, _, hj⟩
    rw [← hj, hflag1]
  have hflag2 : ∀ c, (if sumAdjFlag m (_calcInterfaceValues m
        (fun x => some (v x))).2 c = 0
      then (_calcInterfaceValues m (fun x => some (v x))).2 c
      else if (_calcInterfaceValues m (fun x => some (v x))).2 c = 1 then 1 else 2) =
      (_calcInterfaceValues m (fun x => some (v x))).2 c :=
    fun c => if_pos (hsum c)
  have hfilter2 : (List.finRange N).filter
      (fun c => (if sumAdjFlag m (_calcInterfaceValues m (fun x => some (v x))).2 c = 0
        then (_calcInterfaceValues m (fun x => some (v x))).2 c
        else if (_calcInterfaceValues m (fun x => some (v x))).2 c = 1 then 1 else 2)
          == 2) = [] := by
    rw [List.filter_eq_nil_iff]
    intro c _
    rw [hflag2 c, hflag1 c]
    simp
  have hfilter : (List.finRange N).filter
      (fun c => (_calcInterfaceValues m (fun x => some (v x))).2 c == 2) = [] := by
    rw [List.filter_eq_nil_iff]
    intro c _
    simp [hflag1 c]
  have hinit : _calcInitialTrialValues m
      (_calcInterfaceValues m (fun x => some (v x))).1
      (_calcInterfaceValues m (fun x => some (v x))).2 =
      .ok ((_calcInterfaceValues m (fun x => some (v x))).1,
        (_calcInterfaceValues m (fun x => some (v x))).2) := by
    simp only [_calcInitialTrialValues]
    rw [hfilter2]
    simp only [phase2Vals]
    congr 1
    refine congrArg _ ?_
    funext c
    exact hflag2 c
  have hstate : solveState m v = .ok ⟨(_calcInterfaceValues m (fun x => some (v x))).1,
      (_calcInterfaceValues m (fun x => some (v x))).2, []⟩ := by
    simp only [solveState, hinit, hfilter]
  refine ⟨⟨(_calcInterfaceValues m (fun x => some (v x))).1,
      (_calcInterfaceValues m (fun x => some (v x))).2, []⟩, ?_, rfl, hvar1, hflag1⟩
  simp only [solve, hstate, _calcRemainingValues]
  rw [marchFuel_nil m _ rfl]
  rfl

/-- Claim C5, amended.  The original claim names the error `ComputationError`;
the source's failure path is the bare `raise Error` with `Error` an undefined
name, so what is actually raised is Python's `NameError` (see the
counterexample).  The rest of the claim holds: on a cell with zero Known
neighbours the Trial Value Calculator fails with that error and returns no
value, and neither caller — the Trial Band Initializer's loop nor the
Marching Propagator's neighbour relaxation — catches it: both propagate the
error. -/
theorem claim_C5_zero_known_neighbors (m : Mesh N M) (flag : Fin N → ℕ) (c : Fin N)
    (h : ∀ j, flag (filledNbr m c j) ≠ 1) :
    (∀ var, _calcTrialValue m var flag c = .error .nameError) ∧
    (∀ rest v0, phase2Vals m flag (c :: rest) v0 = .error .nameError) ∧
    (∀ (c2 : Fin N) (j : Fin M) (js : List (Fin M)) (v0 : Fin N → MF)
        (tr : List (Fin N)), filledNbr m c2 j = c → flag c ≠ 1 →
      relaxNeighbors m c2 (j :: js) ⟨v0, flag, tr⟩ = .error .nameError) := by
  have hks : knownSlots m flag c = [] := by
    rw [knownSlots, List.filter_eq_nil_iff]
    intro j _
    simp [h j]
  have hcore : ∀ var, _calcTrialValue m var flag c = .error .nameError := by
    intro var
    simp [_calcTrialValue, hks]
  refine ⟨hcore, fun rest v0 => phase2Vals_error_head m flag c rest v0 _ (hcore v0), ?_⟩
  intro c2 j js v0 tr hfill hfc
  have h1 : ¬ (⟨v0, flag, tr⟩ : MState N).flag (filledNbr m c2 j) = 1 := by
    rw [hfill]; exact hfc
  have hcv : _calcTrialValue m v0 flag (filledNbr m c2 j) = .error .nameError := by
    rw [hfill]; exact hcore v0
  exact relaxNeighbors_cons_err m c2 js ⟨v0, flag, tr⟩ h1 hcv

/-- Counterexample to claim C5 as stated: on an isolated cell with no Known
neighbour the calculator raises the undefined-name error (Python's
`NameError`), not the `ComputationError` the claim names — no error of that
name exists anywhere in the source. -/
theorem claim_C5_counterexample :
    _calcTrialValue mesh5 (fun _ => some 1) (fun _ => 0) 0 =
      Except.error Err.nameError ∧
    Err.nameError ≠ Err.computationError := by decide

/-- Claim C6, amended.  The original claim — a negative discriminant argument
is reported as an explicit fatal numerical-degeneracy error — is false: the
source computes `Numeric.sqrt` of the negative argument, which yields NaN
silently (the spec's design notes concede the original "would propagate a
not-a-number value silently").  What holds: whenever the argument
`cross² * (dsq - (phi1 - phi2)²)` is negative, the quadratic solve returns
the silent NaN pair — both roots are NaN and no error is raised. -/
theorem claim_C6_silent_nan (a b : ℚ) (n1 n2 : ℚ × ℚ) (d1 d2 area1 area2 : ℚ)
    (cid a1 a2 : ℕ)
    (h : (d1 * d2 * (n1.1 * n2.2 - n1.2 * n2.1)) ^ 2 *
        (d1 ^ 2 + d2 ^ 2 - 2 * (d1 * d2 * (n1.1 * n2.1 + n1.2 * n2.2)) -
          (a - b) * (a - b)) < 0) :
    _calcQuadratic (some a) (some b) n1 n2 d1 d2 area1 area2 cid a1 a2 =
      (none, none) := by
  simp only [_calcQuadratic, mSub_some, mMul_some, mNeg_some, msqrt]
  rw [if_pos h]
  simp [mAdd_none_right, mSub_none_right, mDiv_none_left]

/-- Counterexample to claim C6 as stated: a concrete invocation with negative
discriminant argument returns the silent NaN pair rather than any error. -/
theorem claim_C6_counterexample :
    _calcQuadratic (some 0) (some 3) (1, 0) (0, 1) 1 1 0 0 0 0 0 = (none, none) ∧
    ((1 : ℚ) * 1 * (1 * 1 - 0 * 0)) ^ 2 *
      ((1 : ℚ) ^ 2 + 1 ^ 2 - 2 * (1 * 1 * (1 * 0 + 0 * 1)) -
        ((0 : ℚ) - 3) * (0 - 3)) < 0 := by
  constructor
  · decide
  · norm_num

/-- Witness for claim C6 at a concrete degenerate input. -/
theorem claim_C6_witness :
    _calcQuadratic (some 0) (some 3) (1, 0) (0, 1) 1 1 0 0 0 0 0 = (none, none) :=
  claim_C6_silent_nan 0 3 (1, 0) (0, 1) 1 1 0 0 0 0 0 (by norm_num)

/-- Claim C10: the pair of roots of the two-neighbour quadratic solve does
not depend on the face-area arguments — two invocations differing only in
`area1` and `area2` return identical results. -/
theorem claim_C10_area_independent (phi1 phi2 : MF) (n1 n2 : ℚ × ℚ)
    (d1 d2 area1 area2 area1x area2x : ℚ) (cid a1 a2 : ℕ) :
    _calcQuadratic phi1 phi2 n1 n2 d1 d2 area1 area2 cid a1 a2 =
      _calcQuadratic phi1 phi2 n1 n2 d1 d2 area1x area2x cid a1 a2 := rfl

/-! ### Claim C7: the quadratic case of the trial value calculator -/

theorem keyLe_none_left {x : MF} (h : keyLe none x = true) : x = none := by
  cases x with
  | none => rfl
  | some q => simp [keyLe] at h

theorem sorted_two_known (key : Fin M → MF) (j0 j1 : Fin M) (rest : List (Fin M))
    (hp : (j0 :: j1 :: rest).Pairwise (fun a b => keyLe (key a) (key b) = true))
    (hcount : 2 ≤ (j0 :: j1 :: rest).countP (fun j => (key j).isSome)) :
    (key j0).isSome = true ∧ (key j1).isSome = true := by
  rcases List.pairwise_cons.mp hp with ⟨h0, hp1⟩
  rcases List.pairwise_cons.mp hp1 with ⟨h1, _⟩
  constructor
  · cases hk0 : key j0 with
    | some q => rfl
    | none =>
      exfalso
      have hall : ∀ a ∈ j0 :: j1 :: rest, ¬ ((key a).isSome = true) := by
        intro a ha
        rcases List.mem_cons.mp ha with rfl | ha2
        · simp [hk0]
        · have := h0 a ha2
          rw [hk0] at this
          rw [keyLe_none_left this]
          simp
      have := List.countP_eq_zero.mpr hall
      omega
  · cases hk1 : key j1 with
    | some q => rfl
    | none =>
      exfalso
      have hrest : (j1 :: rest).countP (fun j => (key j).isSome) = 0 := by
        refine List.countP_eq_zero.mpr fun a ha => ?_
        rcases List.mem_cons.mp ha with rfl | ha2
        · simp [hk1]
        · have := h1 a ha2
          rw [hk1] at this
          rw [keyLe_none_left this]
          simp
      rw [List.countP_cons, hrest] at hcount
      split at hcount <;> omega

theorem slotKey_isSome_eq (m : Mesh N M) (var : Fin N → MF) (flag : Fin N → ℕ)
    (c : Fin N)
    (hreal : ∀ j, flag (filledNbr m c j) = 1 → (var (filledNbr m c j)).isSome = true)
    (j : Fin M) :
    (slotKey m var flag c j).isSome = (flag (filledNbr m c j) == 1) := by
  by_cases hf : flag (filledNbr m c j) = 1
  · have hv := hreal j hf
    cases hvv : var (filledNbr m c j) with
    | none => rw [hvv] at hv; cases hv
    | some q => simp [slotKey, hf, hvv]
  · have hb : (flag (filledNbr m c j) == 1) = false := by simp [hf]
    rw [hb]
    simp [slotKey, hf]

/-- Claim C7: on a cell with two or more Known neighbours (all holding real
values), the trial value is `(top ± disc) / dsq` — the `+` root when the
target cell's stored value is positive, the `-` root otherwise — computed
from the two smallest-magnitude Known neighbours `(q0, n1, d1)` and
`(q1, n2, d2)` with `dot = d1 d2 (n1 · n2)`,
`cross = d1 d2 (n1.x n2.y - n1.y n2.x)`, `dsq = d1² + d2² - 2 dot`,
`top = -q0 (dot - d2²) - q1 (dot - d1²)` and
`disc = sqrt(cross² (dsq - (q0 - q1)²))`. -/
theorem claim_C7_quadratic_roots (m : Mesh N M) (var : Fin N → MF)
    (flag : Fin N → ℕ) (c : Fin N)
    (h2 : 2 ≤ (knownSlots m flag c).length)
    (hreal : ∀ j, flag (filledNbr m c j) = 1 →
      (var (filledNbr m c j)).isSome = true) :
    ∃ j0 j1 rest q0 q1,
      sortSlots (slotKey m var flag c) (List.finRange M) = j0 :: j1 :: rest ∧
      flag (filledNbr m c j0) = 1 ∧ flag (filledNbr m c j1) = 1 ∧
      var (filledNbr m c j0) = some q0 ∧ var (filledNbr m c j1) = some q1 ∧
      |q0| ≤ |q1| ∧
      (∀ k, flag (filledNbr m c k) = 1 → k ≠ j0 → k ≠ j1 → k ∈ rest) ∧
      (∀ k ∈ rest, ∀ p, flag (filledNbr m c k) = 1 →
        var (filledNbr m c k) = some p → |q1| ≤ |p|) ∧
      ∃ dotProd crossProd dsq top disc,
        dotProd = m.dAP c j0 * m.dAP c j1 *
          ((m.normal c j0).1 * (m.normal c j1).1 +
            (m.normal c j0).2 * (m.normal c j1).2) ∧
        crossProd = m.dAP c j0 * m.dAP c j1 *
          ((m.normal c j0).1 * (m.normal c j1).2 -
            (m.normal c j0).2 * (m.normal c j1).1) ∧
        dsq = m.dAP c j0 ^ 2 + m.dAP c j1 ^ 2 - 2 * dotProd ∧
        top = -(q0 * (dotProd - m.dAP c j1 ^ 2)) - q1 * (dotProd - m.dAP c j0 ^ 2) ∧
        disc = msqrt (some (crossProd ^ 2 * (dsq - (q0 - q1) * (q0 - q1)))) ∧
        _calcTrialValue m var flag c =
          Except.ok (if mGtZero (var c)
            then mDiv (mAdd (some top) disc) (some dsq)
            else mDiv (mSub (some top) disc) (some dsq)) := by
  have hperm := sortSlots_perm (slotKey m var flag c) (List.finRange M)
  have hlen : (sortSlots (slotKey m var flag c) (List.finRange M)).length = M := by
    rw [hperm.length_eq, List.length_finRange]
  have hM : 2 ≤ M := le_trans h2 (by
    rw [knownSlots]
    have := List.length_filter_le
      (fun j => flag (filledNbr m c j) == 1) (List.finRange M)
    rw [List.length_finRange] at this
    exact this)
  obtain ⟨j0, j1, rest, hs⟩ : ∃ j0 j1 rest,
      sortSlots (slotKey m var flag c) (List.finRange M) = j0 :: j1 :: rest := by
    cases hs0 : sortSlots (slotKey m var flag c) (List.finRange M) with
    | nil => rw [hs0] at hlen; simp at hlen; omega
    | cons a t =>
      cases t with
      | nil => rw [hs0] at hlen; simp at hlen; omega
      | cons b r => exact ⟨a, b, r, rfl⟩
  have hcnt : (knownSlots m flag c).length =
      (j0 :: j1 :: rest).countP (fun j => (slotKey m var flag c j).isSome) := by
    rw [← hs]
    rw [hperm.countP_eq]
    rw [knownSlots, ← List.countP_eq_length_filter]
    refine List.countP_congr fun j _ => ?_
    rw [slotKey_isSome_eq m var flag c hreal j]
  have hp := pairwise_sortSlots (slotKey m var flag c) (List.finRange M)
  rw [hs] at hp
  have hcount2 : 2 ≤ (j0 :: j1 :: rest).countP
      (fun j => (slotKey m var flag c j).isSome) := by omega
  rcases sorted_two_known (slotKey m var flag c) j0 j1 rest hp hcount2 with ⟨hk0, hk1⟩
  have hf0 : flag (filledNbr m c j0) = 1 := by
    rw [slotKey_isSome_eq m var flag c hreal j0] at hk0
    simpa using hk0
  have hf1 : flag (filledNbr m c j1) = 1 := by
    rw [slotKey_isSome_eq m var flag c hreal j1] at hk1
    simpa using hk1
  obtain ⟨q0, hq0⟩ : ∃ q0, var (filledNbr m c j0) = some q0 := by
    have := hreal j0 hf0
    cases hv : var (filledNbr m c j0) with
    | none => rw [hv] at this; cases this
    | some q => exact ⟨q, rfl⟩
  obtain ⟨q1, hq1⟩ : ∃ q1, var (filledNbr m c j1) = some q1 := by
    have := hreal j1 hf1
    cases hv : var (filledNbr m c j1) with
    | none => rw [hv] at this; cases this
    | some q => exact ⟨q, rfl⟩
  have hkey0 : slotKey m var flag c j0 = some |q0| := by
    simp [slotKey, hf0, hq0]
  have hkey1 : slotKey m var flag c j1 = some |q1| := by
    simp [slotKey, hf1, hq1]
  rcases List.pairwise_cons.mp hp with ⟨h01, hp1⟩
  rcases List.pairwise_cons.mp hp1 with ⟨h1r, _⟩
  have habs01 : |q0| ≤ |q1| := by
    have := h01 j1 (List.mem_cons_self j1 rest)
    rw [hkey0, hkey1] at this
    simpa [keyLe] using this
  have hmem3 : ∀ k, flag (filledNbr m c k) = 1 → k ≠ j0 → k ≠ j1 → k ∈ rest := by
    intro k _ hk0' hk1'
    have hk : k ∈ j0 :: j1 :: rest := by
      rw [← hs, hperm.mem_iff]
      exact List.mem_finRange k
    rcases List.mem_cons.mp hk with rfl | hk
    · exact absurd rfl hk0'
    rcases List.mem_cons.mp hk with rfl | hk
    · exact absurd rfl hk1'
    exact hk
  have hminr : ∀ k ∈ rest, ∀ p, flag (filledNbr m c k) = 1 →
      var (filledNbr m c k) = some p → |q1| ≤ |p| := by
    intro k hk p hfk hvk
    have := h1r k hk
    rw [hkey1] at this
    have hkeyk : slotKey m var flag c k = some |p| := by
      simp [slotKey, hfk, hvk]
    rw [hkeyk] at this
    simpa [keyLe] using this
  obtain ⟨t, ht⟩ : ∃ t, (knownSlots m flag c).length = t + 2 :=
    ⟨(knownSlots m flag c).length - 2, by omega⟩
  refine ⟨j0, j1, rest, q0, q1, hs, hf0, hf1, hq0, hq1, habs01, hmem3, hminr,
    _, _, _, _, _, rfl, rfl, rfl, rfl, rfl, ?_⟩
  simp only [_calcTrialValue, ht, hs]
  simp only [_calcQuadratic, hq0, hq1, mSub_some, mMul_some, mNeg_some, mAdd_some]

/-- Witness for claim C7 on the concrete mesh `mesh7`: cell 2 has the two
Known neighbours 0 and 1. -/
theorem claim_C7_witness :
    ∃ j0 j1 rest q0 q1,
      sortSlots (slotKey mesh7 v07 f07 2) (List.finRange 2) = j0 :: j1 :: rest ∧
      f07 (filledNbr mesh7 2 j0) = 1 ∧ f07 (filledNbr mesh7 2 j1) = 1 ∧
      v07 (filledNbr mesh7 2 j0) = some q0 ∧ v07 (filledNbr mesh7 2 j1) = some q1 ∧
      |q0| ≤ |q1| ∧
      (∀ k, f07 (filledNbr mesh7 2 k) = 1 → k ≠ j0 → k ≠ j1 → k ∈ rest) ∧
      (∀ k ∈ rest, ∀ p, f07 (filledNbr mesh7 2 k) = 1 →
        v07 (filledNbr mesh7 2 k) = some p → |q1| ≤ |p|) ∧
      ∃ dotProd crossProd dsq top disc,
        dotProd = mesh7.dAP 2 j0 * mesh7.dAP 2 j1 *
          ((mesh7.normal 2 j0).1 * (mesh7.normal 2 j1).1 +
            (mesh7.normal 2 j0).2 * (mesh7.normal 2 j1).2) ∧
        crossProd = mesh7.dAP 2 j0 * mesh7.dAP 2 j1 *
          ((mesh7.normal 2 j0).1 * (mesh7.normal 2 j1).2 -
            (mesh7.normal 2 j0).2 * (mesh7.normal 2 j1).1) ∧
        dsq = mesh7.dAP 2 j0 ^ 2 + mesh7.dAP 2 j1 ^ 2 - 2 * dotProd ∧
        top = -(q0 * (dotProd - mesh7.dAP 2 j1 ^ 2)) -
          q1 * (dotProd - mesh7.dAP 2 j0 ^ 2) ∧
        disc = msqrt (some (crossProd ^ 2 * (dsq - (q0 - q1) * (q0 - q1)))) ∧
        _calcTrialValue mesh7 v07 f07 2 =
          Except.ok (if mGtZero (v07 2)
            then mDiv (mAdd (some top) disc) (some dsq)
            else mDiv (mSub (some top) disc) (some dsq)) :=
  claim_C7_quadratic_roots mesh7 v07 f07 2 (by decide) (by decide)

/-! ### Claim C2: the marching loop's selection -/

/-- Claim C2, amended.  The original claim — ties in absolute value are
broken by lowest cell index — is false (see the counterexample): the
selection is `Numeric.argmin` over the worklist, so ties go to the earliest
worklist position (initial Trial cells in ascending index order, cells
activated during the march in activation order behind them).  What holds:
the selected cell is a worklist member with minimal absolute stored value
(no member compares strictly below it; NaN values compare as the fill value
`+∞`), every member strictly greater than it sits strictly later in the
list, and the step then finalises exactly that cell. -/
theorem claim_C2_selection (var : Fin N → MF) (l : List (Fin N)) (h : l ≠ []) :
    ∃ c l1 l2, argminAbs var l = some c ∧ l = l1 ++ c :: l2 ∧
      (∀ x ∈ l, keyLt (mAbs (var x)) (mAbs (var c)) = false) ∧
      (∀ x ∈ l1, keyLt (mAbs (var c)) (mAbs (var x)) = true) ∧
      (∀ (M2 : ℕ) (m : Mesh N M2) (flag : Fin N → ℕ),
        marchStep m ⟨var, flag, l⟩ =
          relaxNeighbors m c (List.finRange M2)
            ⟨var, Function.update flag c 1, l.erase c⟩) := by
  cases hc : argminAbs var l with
  | none => exact absurd ((argminAbs_eq_none var l).mp hc) h
  | some c =>
    rcases argminAbs_spec var l c hc with ⟨⟨l1, l2, hsplit, hpre⟩, hmin⟩
    exact ⟨c, l1, l2, rfl, hsplit, hmin, hpre,
      fun M2 m flag => by simp [marchStep, hc]⟩

/-- Field for the claim C2 witness. -/
def w2var : Fin 3 → MF := fun x => some (x.val : ℚ)

/-- Witness for claim C2 on a concrete worklist. -/
theorem claim_C2_witness :
    ∃ c l1 l2, argminAbs w2var [2, 0, 1] = some c ∧
      ([2, 0, 1] : List (Fin 3)) = l1 ++ c :: l2 ∧
      (∀ x ∈ ([2, 0, 1] : List (Fin 3)),
        keyLt (mAbs (w2var x)) (mAbs (w2var c)) = false) ∧
      (∀ x ∈ l1, keyLt (mAbs (w2var c)) (mAbs (w2var x)) = true) ∧
      (∀ (M2 : ℕ) (m : Mesh 3 M2) (flag : Fin 3 → ℕ),
        marchStep m ⟨w2var, flag, [2, 0, 1]⟩ =
          relaxNeighbors m c (List.finRange M2)
            ⟨w2var, Function.update flag c 1,
              ([2, 0, 1] : List (Fin 3)).erase c⟩) :=
  claim_C2_selection w2var [2, 0, 1] (by decide)

/-- Counterexample to claim C2 as stated: running `solve`'s phases on `mesh2`
with field `v02` and then one marching iteration reaches the loop state with
worklist `[3, 2]`, where cells 3 and 2 hold equal absolute values `5/2` and
cell 2 is Trial with the lower index — yet the selection is cell 3, the
earlier worklist entry, not the lowest index. -/
theorem claim_C2_counterexample :
    ((solveState mesh2 v02).bind (marchStep mesh2)).map
        (fun st => (st.trial, argminAbs st.var st.trial,
          st.var 2, st.var 3, st.flag 2)) =
      Except.ok ([3, 2], some 3, some (5/2 : ℚ), some (5/2 : ℚ), 2) ∧
    (2 : Fin 5) < 3 := by decide

/-! ### Claim C8: Known cells are immutable -/

/-- Claim C8: once a cell is Known (flag 1), neither the Trial Band
Initializer nor any number of Marching Propagator iterations modifies its
status or its stored value. -/
theorem claim_C8_known_immutable (m : Mesh N M) :
    (∀ (v : Fin N → MF) (flag : Fin N → ℕ)
        (res : (Fin N → MF) × (Fin N → ℕ)) (c : Fin N), flag c = 1 →
        _calcInitialTrialValues m v flag = .ok res →
        res.2 c = 1 ∧ res.1 c = v c) ∧
    (∀ (n : ℕ) (st st2 : MState N) (c : Fin N),
        marchFuel m n st = some (.ok st2) → st.flag c = 1 →
        st2.flag c = 1 ∧ st2.var c = st.var c) := by
  constructor
  · intro v flag res c hc h
    simp only [_calcInitialTrialValues] at h
    have hfl2 : (if sumAdjFlag m flag c = 0 then flag c
        else if flag c = 1 then 1 else 2) = 1 := by
      by_cases hs : sumAdjFlag m flag c = 0 <;> simp [hs, hc]
    have hnotmem : c ∉ (List.finRange N).filter
        (fun x => (if sumAdjFlag m flag x = 0 then flag x
          else if flag x = 1 then 1 else 2) == 2) := by
      intro hmem
      have := (List.mem_filter.mp hmem).2
      rw [hfl2] at this
      cases this
    cases hp : phase2Vals m
        (fun x => if sumAdjFlag m flag x = 0 then flag x
          else if flag x = 1 then 1 else 2)
        ((List.finRange N).filter
          (fun x => (if sumAdjFlag m flag x = 0 then flag x
            else if flag x = 1 then 1 else 2) == 2)) v with
    | error e =>
      rw [hp] at h
      cases h
    | ok v2 =>
      rw [hp] at h
      injection h with h
      subst h
      exact ⟨hfl2, phase2Vals_not_mem m _ _ v v2 c hnotmem hp⟩
  · intro n st st2 c h hc
    exact marchFuel_known m n st st2 c h hc

/-! ### Claim C9: the marching loop terminates -/

/-- Claim C9: for every mesh and every loop state — in particular states
whose mesh components contain no sign change — the marching loop completes
within `measureM` iterations (each iteration removes the selected cell from
the worklist and activates each cell at most once, so worklist length plus
Unknown count strictly decreases); on normal completion the Trial worklist
is empty, and every cell still Unknown at the end was never written — its
value is exactly its value on loop entry. -/
theorem claim_C9_termination (m : Mesh N M) (st : MState N) :
    (∃ res, marchFuel m (measureM st) st = some res ∧
      _calcRemainingValues m st = res) ∧
    (∀ n st2, marchFuel m n st = some (.ok st2) → st2.trial = []) ∧
    (∀ n st2 c, marchFuel m n st = some (.ok st2) → st2.flag c = 0 →
      st.flag c = 0 ∧ st2.var c = st.var c) := by
  refine ⟨?_, fun n st2 h => marchFuel_ok_trial_nil m n st st2 h,
    fun n st2 c h h0 => marchFuel_unknown_back m n st st2 c h h0⟩
  have hs := marchFuel_complete m (measureM st) st (le_refl _)
  cases hr : marchFuel m (measureM st) st with
  | none => rw [hr] at hs; cases hs
  | some res =>
    refine ⟨res, rfl, ?_⟩
    simp [_calcRemainingValues, hr]

/-! ### Remaining witnesses -/

/-- Witness for claim C4: on the two-cell mesh with the all-positive field
`v04` (which violates the input contract), `solve` silently succeeds with
everything unchanged and Unknown. -/
theorem claim_C4_witness :
    ∃ st, solve mesh4 v04 = Except.ok st ∧ st.trial = [] ∧
      (∀ c, st.var c = some (v04 c)) ∧ (∀ c, st.flag c = 0) :=
  claim_C4_silent_return mesh4 v04 (by decide)

/-- Counterexample to claim C4 as stated: the all-positive field `v04` has
no sign change, yet `solve` does not fail at entry — it returns successfully
with the field unchanged and every cell Unknown. -/
theorem claim_C4_counterexample :
    (∀ c : Fin 2, 0 < v04 c) ∧
    (solve mesh4 v04).map
        (fun st => (st.trial, st.var 0, st.var 1, st.flag 0, st.flag 1)) =
      Except.ok ([], some (1 : ℚ), some (2 : ℚ), 0, 0) := by decide

/-- Witness for claim C5: the isolated cell of `mesh5` has no Known
neighbour, so the calculator errors and both callers propagate. -/
theorem claim_C5_witness :
    (∀ var, _calcTrialValue mesh5 var (fun _ => 0) 0 =
      Except.error Err.nameError) ∧
    (∀ rest v0, phase2Vals mesh5 (fun _ => 0) ((0 : Fin 1) :: rest) v0 =
      Except.error Err.nameError) ∧
    (∀ (c2 : Fin 1) (j : Fin 1) (js : List (Fin 1)) (v0 : Fin 1 → MF)
        (tr : List (Fin 1)), filledNbr mesh5 c2 j = 0 → (0 : ℕ) ≠ 1 →
      relaxNeighbors mesh5 c2 (j :: js) ⟨v0, fun _ => 0, tr⟩ =
        Except.error Err.nameError) :=
  claim_C5_zero_known_neighbors mesh5 (fun _ => 0) 0 (by decide)

end FastMarch
